import Mathlib

/-!
# Verification of the L2 shortest-path-first controller (part2/p2_l2spf.py)

A shallow embedding of the `L2SPFController` Ryu application.  Python
dictionaries are modelled as association lists where a write conses the new
binding at the front and a lookup returns the first match (so later writes
shadow earlier ones, exactly like dictionary assignment).  The networkx graph
is modelled as an explicit node list plus an undirected weighted edge list;
the library call `nx.all_shortest_paths(G, a, b, weight='weight')` is embedded
by its documented semantics — the set of all simple paths of minimum
cumulative edge weight — realised executably as an exhaustive simple-path
enumeration filtered by cost minimality, and proved below to return exactly
the minimum-cost simple paths.
-/

/-- First-match lookup in an association list (Python dictionary read;
writes cons at the front, so the first match is the most recent write). -/
def dlookup {α β : Type} [DecidableEq α] (k : α) : List (α × β) → Option β
  | [] => none
  | (k', v) :: rest => if k = k' then some v else dlookup k rest

/-- An undirected weighted graph: explicit node list plus edge list
`(u, v, weight)`.  Mirrors the `networkx.Graph` instances `self.graph`
(from the config weight matrix) and `self.topology_graph` (discovery). -/
structure Graph where
  nodes : List Nat
  edges : List (Nat × Nat × Nat)
deriving DecidableEq, Repr, Inhabited

/-- Weight of the edge between `a` and `b`, searching both orientations
(undirected graph adjacency). -/
def Graph.edgeWeight (g : Graph) (a b : Nat) : Option Nat :=
  (g.edges.find? fun e => (e.1 = a ∧ e.2.1 = b) ∨ (e.1 = b ∧ e.2.1 = a)).map
    (fun e => e.2.2)

/-- All nodes of the graph: the declared nodes together with every edge
endpoint (networkx `add_edge` inserts endpoints as nodes), deduplicated. -/
def Graph.nodeList (g : Graph) : List Nat :=
  (g.nodes ++ g.edges.flatMap fun e => [e.1, e.2.1]).dedup

/-- The neighbours of `a`: every node joined to `a` by an edge. -/
def Graph.neighborList (g : Graph) (a : Nat) : List Nat :=
  (g.edges.filterMap fun e =>
    if e.1 = a then some e.2.1 else if e.2.1 = a then some e.1 else none).dedup

/-- Enumerate the simple paths from `current` to `target` that avoid the
nodes in `visited`; `fuel` bounds the number of further hops taken. -/
def simplePathsAux (g : Graph) (target : Nat) (fuel : Nat) (visited : List Nat)
    (current : Nat) : List (List Nat) :=
  if current = target then [[current]]
  else
    match fuel with
    | 0 => []
    | fuel' + 1 =>
      (g.neighborList current).flatMap fun n =>
        if n ∈ current :: visited then []
        else (simplePathsAux g target fuel' (current :: visited) n).map
          (fun p => current :: p)

/-- All simple paths from `a` to `b` in `g`.  The fuel `g.nodeList.length`
suffices because a simple path visits each node at most once. -/
def simplePaths (g : Graph) (a b : Nat) : List (List Nat) :=
  simplePathsAux g b g.nodeList.length [] a

/-- Total edge weight of a path (sum of consecutive edge weights). -/
def pathCost (g : Graph) : List Nat → Nat
  | [] => 0
  | [_] => 0
  | a :: b :: rest => (g.edgeWeight a b).getD 0 + pathCost g (b :: rest)

/-- `p` is a simple path from `a` to `b` in `g`: it starts at `a`, ends at
`b`, repeats no node, and every consecutive pair is joined by an edge. -/
def IsSimplePathBetween (g : Graph) (a b : Nat) (p : List Nat) : Prop :=
  p.head? = some a ∧ p.getLast? = some b ∧ p.Nodup ∧
    p.Chain' (fun x y => (g.edgeWeight x y).isSome = true)

/-- Embedding of `nx.all_shortest_paths(G, source, target, weight='weight')`
(the library call in `packet_in_handler`): all simple paths from `a` to `b`
achieving the minimum cumulative edge weight.  The empty result corresponds
to the `NetworkXNoPath` / `NodeNotFound` exceptions. -/
def all_shortest_paths (g : Graph) (a b : Nat) : List (List Nat) :=
  (simplePaths g a b).filter fun p =>
    (simplePaths g a b).all fun q => decide (pathCost g p ≤ pathCost g q)

/-! ## Controller data model -/

/-- `ether_types.ETH_TYPE_LLDP`. -/
def ETH_TYPE_LLDP : Nat := 0x88cc
/-- `ether_types.ETH_TYPE_ARP`. -/
def ETH_TYPE_ARP : Nat := 0x0806
/-- `ofproto.OFPP_CONTROLLER`. -/
def OFPP_CONTROLLER : Nat := 0xfffffffd

/-- The parsed TCP header of the packet (`pkt.get_protocol(tcp.tcp)`):
source and destination transport ports. -/
structure TcpInfo where
  src_port : Nat
  dst_port : Nat
deriving DecidableEq, Repr

/-- The data the `packet_in_handler` extracts from a PacketIn event:
datapath id, ingress port, ethertype, source/destination MAC strings, and
the optional parsed TCP header (`none` when `pkt.get_protocol(tcp.tcp)`
returns `None`). -/
structure PacketInMsg where
  dpid : Nat
  inPort : Nat
  ethertype : Nat
  src : String
  dst : String
  tcpHint : Option TcpInfo
deriving DecidableEq, Repr

/-- An OpenFlow match specification, as built by the controller:
the empty table-miss match, a MAC-only match `OFPMatch(eth_dst=...)`, or a
transport-specific match
`OFPMatch(eth_type=0x800, eth_dst=..., ip_proto=6, tcp_src=..., tcp_dst=...)`. -/
inductive MatchSpec where
  | matchAll : MatchSpec
  | matchMac (ethDst : String) : MatchSpec
  | matchTcp (ethDst : String) (tcpSrc tcpDst : Nat) : MatchSpec
deriving DecidableEq, Repr

/-- A flow rule as sent by `add_flow` (`OFPFlowMod` with a single output
action): target switch, match, output port, priority, idle timeout. -/
structure FlowRule where
  dpid : Nat
  matchSpec : MatchSpec
  outPort : Nat
  priority : Nat
  idleTimeout : Nat
deriving DecidableEq, Repr

/-- What the handler sends for the packet under consideration: nothing
(a bare `return`), a flood `OFPPacketOut`, or a unicast `OFPPacketOut`
to one port. -/
inductive Outcome where
  | dropped : Outcome
  | flood : Outcome
  | output (port : Nat) : Outcome
deriving DecidableEq, Repr

/-- The mutable state of `L2SPFController`.  Dictionaries are association
lists (most recent write first); `datapaths` keeps only the key set since
the datapath objects themselves carry no state the model needs. -/
structure State where
  graph : Graph
  ecmpEnabled : Bool
  macToSwitch : List (String × Nat)
  macToPort : List (Nat × List (String × Nat))
  datapaths : List Nat
  flowToPath : List ((Nat × Nat × String) × List Nat)
  topologyGraph : Graph
  linkToPort : List ((Nat × Nat) × Nat)
  portToLink : List ((Nat × Nat) × Nat)
deriving DecidableEq, Repr

/-- `add_flow(datapath, priority, match, actions, idle_timeout)`: builds the
`OFPFlowMod` that is sent to switch `dpid` (in the source `idle_timeout`
defaults to 0; every call site here passes it explicitly). -/
def add_flow (dpid priority : Nat) (ms : MatchSpec) (outPort : Nat)
    (idle : Nat) : FlowRule :=
  { dpid := dpid, matchSpec := ms, outPort := outPort, priority := priority,
    idleTimeout := idle }

/-- `switch_features_handler`: registers the datapath, creates the switch's
MAC table if absent, and installs the table-miss rule
(priority 0, send-to-controller, default idle timeout 0). -/
def switch_features_handler (st : State) (dpid : Nat) : State × List FlowRule :=
  let st :=
    { st with
      datapaths := dpid :: st.datapaths
      macToPort :=
        if (dlookup dpid st.macToPort).isSome then st.macToPort
        else (dpid, []) :: st.macToPort }
  (st, [add_flow dpid 0 MatchSpec.matchAll OFPP_CONTROLLER 0])

/-- `link_add_handler`: stores both directions of a discovered link in
`link_to_port` and `port_to_link`. -/
def link_add_handler (st : State) (srcDpid srcPort dstDpid dstPort : Nat) :
    State :=
  { st with
    linkToPort :=
      ((dstDpid, srcDpid), dstPort) :: ((srcDpid, dstDpid), srcPort) ::
        st.linkToPort
    portToLink :=
      ((dstDpid, dstPort), srcDpid) :: ((srcDpid, srcPort), dstDpid) ::
        st.portToLink }

/-- The two assignments of lines 183-184:
`mac_to_switch[src] = dpid; mac_to_port[dpid][src] = in_port`.
`none` models the `KeyError` raised when `dpid` has no entry in
`mac_to_port` (the features handler creates it on switch join). -/
def learnWrite (st : State) (dpid : Nat) (src : String) (inPort : Nat) :
    Option State :=
  match dlookup dpid st.macToPort with
  | none => none
  | some inner =>
    some
      { st with
        macToSwitch := (src, dpid) :: st.macToSwitch
        macToPort := (dpid, (src, inPort) :: inner) :: st.macToPort }

/-- Learning step of `packet_in_handler`: record the source MAC only when
the ingress port is not an endpoint of a discovered inter-switch link
(`if (dpid, in_port) not in self.port_to_link`). -/
def learnStep (st : State) (dpid inPort : Nat) (src : String) : Option State :=
  if (dlookup (dpid, inPort) st.portToLink).isSome then some st
  else learnWrite st dpid src inPort

/-- The destination lookup pattern of lines 193-199: the switch that most
recently learned the MAC, then the port learned there. -/
def lookupMac (st : State) (mac : String) : Option (Nat × Nat) :=
  match dlookup mac st.macToSwitch with
  | none => none
  | some s =>
    match (dlookup s st.macToPort).bind (fun inner => dlookup mac inner) with
    | none => none
    | some p => some (s, p)

/-- `install_path_rules(path, dst_mac, final_port, tcp_pkt)`: one rule per
switch on the path, skipping switches that are not registered in
`datapaths` and non-final hops whose link port is unknown; a TCP hint
selects the transport-specific match at priority 10, otherwise the
MAC-only match at priority 5; idle timeout 30 in both cases.  The output
port of a non-final hop is the link port toward the next switch, the final
hop outputs to `finalPort`. -/
def install_path_rules (st : State) (path : List Nat) (dstMac : String)
    (finalPort : Nat) (hint : Option TcpInfo) : List FlowRule :=
  go path
where
  /-- one `for`-iteration per path element, carrying the remaining path -/
  mkRule (sw outPort : Nat) : FlowRule :=
    match hint with
    | some t => add_flow sw 10 (MatchSpec.matchTcp dstMac t.src_port t.dst_port) outPort 30
    | none => add_flow sw 5 (MatchSpec.matchMac dstMac) outPort 30
  go : List Nat → List FlowRule
  | [] => []
  | [sw] =>
    if sw ∈ st.datapaths then [mkRule sw finalPort] else []
  | sw :: next :: rest =>
    let tail := go (next :: rest)
    if sw ∈ st.datapaths then
      match dlookup (sw, next) st.linkToPort with
      | none => tail
      | some p => mkRule sw p :: tail
    else tail

/-- `get_outport(switch_id, path, final_port)`: the output port for
`switchId` along `path` — the link port toward the successor of the first
occurrence of `switchId` in the path, `finalPort` for the final hop, and
`None` when the switch is not on the path or the link port is unknown. -/
def get_outport (st : State) (switchId : Nat) (finalPort : Nat) :
    List Nat → Option Nat
  | [] => none
  | [x] => if x = switchId then some finalPort else none
  | x :: y :: rest =>
    if x = switchId then dlookup (switchId, y) st.linkToPort
    else get_outport st switchId finalPort (y :: rest)

/-- Line 223: use the discovered topology when it has at least one node,
else fall back to the static config graph. -/
def graphToUse (st : State) : Graph :=
  if st.topologyGraph.nodeList.length > 0 then st.topologyGraph else st.graph

/-- Path selection of lines 228-234: with ECMP enabled and several
equal-cost paths, `random.choice` (an arbitrary index `k`); otherwise
`all_paths[0]`.  `none` when no path exists. -/
def pickPath (ecmp : Bool) (k : Nat) : List (List Nat) → Option (List Nat)
  | [] => none
  | p :: rest =>
    if ecmp ∧ (p :: rest).length > 1 then (p :: rest).get? (k % (p :: rest).length)
    else some p

/-- Character-list prefix test (executable core of `str.startswith`). -/
def charsStartWith : List Char → List Char → Bool
  | [], _ => true
  | _ :: _, [] => false
  | a :: pre, b :: rest => a == b && charsStartWith pre rest

/-- `s.startswith(pre)` on Python strings. -/
def strStarts (s pre : String) : Bool := charsStartWith pre.data s.data

/-- Line 178: `dst.startswith('33:33') or dst.startswith('01:00:5e') or
dst.startswith('ff:ff')` — the multicast/broadcast destination test. -/
def isMulticastDst (dst : String) : Bool :=
  strStarts dst "33:33" || strStarts dst "01:00:5e" || strStarts dst "ff:ff"

/-- What one `packet_in_handler` invocation produced: the new controller
state, what was sent for the packet, the flow rules sent to switches, and
how many times `install_path_rules` was invoked (0 or 1). -/
structure HandlerResult where
  st : State
  out : Outcome
  rules : List FlowRule
  installCalls : Nat
deriving DecidableEq, Repr

/-- Lines 252-269: read the cached path back and forward the current packet
out of `get_outport`, flooding when the port cannot be determined.
`none` models the (unreachable at its call sites) `KeyError` of
`self.flow_to_path[path_key]`. -/
def forwardAlong (st : State) (m : PacketInMsg)
    (pathKey : Nat × Nat × String) (dstPort : Nat) (rules : List FlowRule)
    (calls : Nat) : Option HandlerResult :=
  match dlookup pathKey st.flowToPath with
  | none => none
  | some path =>
    match get_outport st m.dpid dstPort path with
    | none => some ⟨st, Outcome.flood, rules, calls⟩
    | some pt => some ⟨st, Outcome.output pt, rules, calls⟩

/-- `packet_in_handler`.  `k` resolves the `random.choice` among equal-cost
paths; `installOk = false` models an exception raised inside the `try`
block after the cache write (during transport-header parsing or rule
installation), which the bare `except` turns into a logged `return`.
`none` models an uncaught `KeyError` escaping the handler. -/
def packet_in_handler (st : State) (m : PacketInMsg) (k : Nat)
    (installOk : Bool) : Option HandlerResult :=
  if m.ethertype = ETH_TYPE_LLDP then some ⟨st, Outcome.dropped, [], 0⟩
  else if isMulticastDst m.dst then some ⟨st, Outcome.dropped, [], 0⟩
  else
    match learnStep st m.dpid m.inPort m.src with
    | none => none
    | some st1 =>
      if m.ethertype = ETH_TYPE_ARP then some ⟨st1, Outcome.flood, [], 0⟩
      else
        match dlookup m.dst st1.macToSwitch with
        | none => some ⟨st1, Outcome.flood, [], 0⟩
        | some dstDpid =>
          match (dlookup dstDpid st1.macToPort).bind (fun inner => dlookup m.dst inner) with
          | none => none
          | some dstPort =>
            if m.dpid = dstDpid then some ⟨st1, Outcome.output dstPort, [], 0⟩
            else
              let pathKey : Nat × Nat × String := (m.dpid, dstDpid, m.dst)
              match dlookup pathKey st1.flowToPath with
              | some _ => forwardAlong st1 m pathKey dstPort [] 0
              | none =>
                match pickPath st1.ecmpEnabled k
                    (all_shortest_paths (graphToUse st1) m.dpid dstDpid) with
                | none => some ⟨st1, Outcome.dropped, [], 0⟩
                | some path =>
                  let st2 := { st1 with flowToPath := (pathKey, path) :: st1.flowToPath }
                  if installOk then
                    forwardAlong st2 m pathKey dstPort
                      (install_path_rules st2 path m.dst dstPort m.tcpHint) 1
                  else some ⟨st2, Outcome.dropped, [], 0⟩

/-- A controller event: a switch connecting (`switch_features_handler`), a
link discovery (`link_add_handler`), or a PacketIn
(`packet_in_handler` with its choice index and install success flag). -/
inductive Event where
  | switchFeatures (dpid : Nat) : Event
  | linkAdd (srcDpid srcPort dstDpid dstPort : Nat) : Event
  | packetIn (m : PacketInMsg) (k : Nat) (installOk : Bool) : Event
deriving DecidableEq, Repr

/-- Dispatch one event to its handler; the result carries the new state and
every flow rule the invocation sent. -/
def handleEvent (st : State) : Event → Option (State × List FlowRule)
  | Event.switchFeatures dpid =>
    some (switch_features_handler st dpid)
  | Event.linkAdd a ap b bp => some (link_add_handler st a ap b bp, [])
  | Event.packetIn m k ok =>
    (packet_in_handler st m k ok).map fun r => (r.st, r.rules)

/-- Deliver the same frame repeatedly (one `(k, installOk)` pair per
delivery), collecting each invocation's result. -/
def runRepeats (m : PacketInMsg) :
    State → List (Nat × Bool) → Option (State × List HandlerResult)
  | st, [] => some (st, [])
  | st, (k, ok) :: rest =>
    match packet_in_handler st m k ok with
    | none => none
    | some r => (runRepeats m r.st rest).map fun q => (q.1, r :: q.2)

/-- Apply a sequence of raw learn writes `(switch, mac, port)`
(the table-layer operation of lines 183-184). -/
def applyLearns (st : State) : List (Nat × String × Nat) → Option State
  | [] => some st
  | (s, mac, p) :: rest => (learnWrite st s mac p).bind fun st' => applyLearns st' rest

/-- The location-table coherence invariant: every MAC known to
`mac_to_switch` has a port entry on that switch in `mac_to_port`. -/
def MacInv (st : State) : Prop :=
  ∀ mac s, dlookup mac st.macToSwitch = some s →
    ∃ inner, dlookup s st.macToPort = some inner ∧
      (dlookup mac inner).isSome = true

/-- Precondition justified by the dispatcher: a PacketIn is only delivered
for a datapath whose `switch_features_handler` already ran (Ryu's
`MAIN_DISPATCHER` follows `CONFIG_DISPATCHER`), so its `mac_to_port`
entry exists. -/
def eventPre (st : State) : Event → Prop
  | Event.packetIn m _ _ => (dlookup m.dpid st.macToPort).isSome = true
  | _ => True

/-- The TCP hint carried by an event (only a PacketIn carries one). -/
def eventHint : Event → Option TcpInfo
  | Event.packetIn m _ _ => m.tcpHint
  | _ => none

/-- The most recent learn operation for `mac` in a sequence of
`(switch, mac, port)` writes: the last matching element, as
`(switch, port)`. -/
def lastLearnFor (mac : String) : List (Nat × String × Nat) → Option (Nat × Nat)
  | [] => none
  | (s, m, p) :: rest =>
    match lastLearnFor mac rest with
    | some r => some r
    | none => if m = mac then some (s, p) else none

/-! ## Concrete states and frames used by counterexamples and witnesses -/

/-- Two switches 1, 2 joined by a link of weight 1 (switch 1 port 3 ↔
switch 2 port 4); host MAC `aa` learned at switch 2 port 7; both switches
live; empty flow cache; ECMP off. -/
def stA : State :=
  { graph := ⟨[], []⟩, ecmpEnabled := false,
    macToSwitch := [("aa", 2)],
    macToPort := [(1, []), (2, [("aa", 7)])],
    datapaths := [2, 1], flowToPath := [],
    topologyGraph := ⟨[1, 2], [(1, 2, 1)]⟩,
    linkToPort := [((1, 2), 3), ((2, 1), 4)],
    portToLink := [((1, 3), 2), ((2, 4), 1)] }

/-- Like `stA` but with no links discovered between the two switches (and
no config-graph fallback), so switches 1 and 2 are disconnected. -/
def stNoPath : State :=
  { graph := ⟨[], []⟩, ecmpEnabled := false,
    macToSwitch := [("aa", 2)],
    macToPort := [(1, []), (2, [("aa", 7)])],
    datapaths := [2, 1], flowToPath := [],
    topologyGraph := ⟨[1, 2], []⟩,
    linkToPort := [], portToLink := [] }

/-- A state with no live datapaths at all. -/
def stNoDp : State :=
  { graph := ⟨[], []⟩, ecmpEnabled := false,
    macToSwitch := [], macToPort := [], datapaths := [], flowToPath := [],
    topologyGraph := ⟨[1, 2], [(1, 2, 1)]⟩,
    linkToPort := [((1, 2), 3), ((2, 1), 4)], portToLink := [] }

/-- An IPv4 frame from host `bb` to the learned host `aa`, entering
switch 1 on host port 1, with no TCP payload. -/
def mA : PacketInMsg :=
  { dpid := 1, inPort := 1, ethertype := 0x0800, src := "bb", dst := "aa",
    tcpHint := none }

/-- A broadcast-destination frame entering switch 1 on host port 1. -/
def mBcast : PacketInMsg :=
  { dpid := 1, inPort := 1, ethertype := 0x0800, src := "bb",
    dst := "ff:ff:ff:ff:ff:ff", tcpHint := none }

/-- A multicast-destination frame from host `cc` entering switch 2 on
host port 9 (a port that is not a link endpoint). -/
def mMcast : PacketInMsg :=
  { dpid := 2, inPort := 9, ethertype := 0x0800, src := "cc",
    dst := "33:33:00:00:00:02", tcpHint := none }

/-- The table bootstrap state used by the C8 witness: switches 1 and 2
joined, nothing learned yet. -/
def stTables : State :=
  { graph := ⟨[], []⟩, ecmpEnabled := false,
    macToSwitch := [], macToPort := [(1, []), (2, [])],
    datapaths := [2, 1], flowToPath := [],
    topologyGraph := ⟨[], []⟩, linkToPort := [], portToLink := [] }

/-- The recurring situation of a repeated frame: the frame is a unicast
data frame, its destination is known at the remote switch `dd` on port
`dp`, and the flow cache already holds path `p` for the key
`(m.dpid, dd, m.dst)` (as observed by the handler after its learning
step). -/
def SameKeyHitState (m : PacketInMsg) (dd dp : Nat) (p : List Nat)
    (st : State) : Prop :=
  m.ethertype ≠ ETH_TYPE_LLDP ∧ isMulticastDst m.dst = false ∧
  m.ethertype ≠ ETH_TYPE_ARP ∧ m.dpid ≠ dd ∧
  ∃ st1, learnStep st m.dpid m.inPort m.src = some st1 ∧
    dlookup m.dst st1.macToSwitch = some dd ∧
    ((dlookup dd st1.macToPort).bind fun inner => dlookup m.dst inner) =
      some dp ∧
    dlookup (m.dpid, dd, m.dst) st1.flowToPath = some p

/-! ## Path-resolver lemmas -/

theorem edgeWeight_isSome_iff {g : Graph} {a b : Nat} :
    (g.edgeWeight a b).isSome = true ↔
      ∃ e ∈ g.edges, (e.1 = a ∧ e.2.1 = b) ∨ (e.1 = b ∧ e.2.1 = a) := by
  unfold Graph.edgeWeight
  have hmap : ∀ {o : Option (Nat × Nat × Nat)},
      (o.map fun e => e.2.2).isSome = o.isSome := by
    intro o; cases o <;> rfl
  rw [hmap, List.find?_isSome]
  simp

theorem mem_neighborList_iff {g : Graph} {a b : Nat} :
    b ∈ g.neighborList a ↔ (g.edgeWeight a b).isSome = true := by
  rw [edgeWeight_isSome_iff]
  unfold Graph.neighborList
  rw [List.mem_dedup, List.mem_filterMap]
  constructor
  · rintro ⟨e, he, hf⟩
    refine ⟨e, he, ?_⟩
    split_ifs at hf with h1 h2
    · exact Or.inl ⟨h1, by injection hf⟩
    · have hb : e.1 = b := by injection hf
      exact Or.inr ⟨hb, h2⟩
  · rintro ⟨e, he, h | h⟩
    · exact ⟨e, he, by simp [h.1, h.2]⟩
    · refine ⟨e, he, ?_⟩
      by_cases h1 : e.1 = a
      · have hab : a = b := h1 ▸ h.1
        rw [if_pos h1, h.2, hab]
      · rw [if_neg h1, if_pos h.2, h.1]

theorem mem_nodeList_of_edgeWeight {g : Graph} {x y : Nat}
    (h : (g.edgeWeight x y).isSome = true) :
    x ∈ g.nodeList ∧ y ∈ g.nodeList := by
  rw [edgeWeight_isSome_iff] at h
  obtain ⟨e, he, h | h⟩ := h
  · constructor
    · exact List.mem_dedup.mpr (List.mem_append_right _
        (List.mem_flatMap.mpr ⟨e, he, by simp [h.1]⟩))
    · exact List.mem_dedup.mpr (List.mem_append_right _
        (List.mem_flatMap.mpr ⟨e, he, by simp [h.2]⟩))
  · constructor
    · exact List.mem_dedup.mpr (List.mem_append_right _
        (List.mem_flatMap.mpr ⟨e, he, by simp [h.2]⟩))
    · exact List.mem_dedup.mpr (List.mem_append_right _
        (List.mem_flatMap.mpr ⟨e, he, by simp [h.1]⟩))

theorem simplePathsAux_sound (g : Graph) (t : Nat) :
    ∀ (fuel : Nat) (vis : List Nat) (c : Nat) (p : List Nat),
      c ∉ vis → p ∈ simplePathsAux g t fuel vis c →
      p.head? = some c ∧ p.getLast? = some t ∧ p.Nodup ∧
        p.Chain' (fun x y => (g.edgeWeight x y).isSome = true) ∧
        ∀ x ∈ p, x ∉ vis := by
  intro fuel
  induction fuel with
  | zero =>
    intro vis c p hc hp
    simp only [simplePathsAux] at hp
    split at hp
    · next h =>
      simp only [List.mem_singleton] at hp
      subst hp; subst h
      refine ⟨rfl, rfl, List.nodup_singleton c, List.chain'_singleton c, ?_⟩
      intro x hx
      simp only [List.mem_singleton] at hx
      exact hx ▸ hc
    · simp at hp
  | succ f ih =>
    intro vis c p hc hp
    simp only [simplePathsAux] at hp
    split at hp
    · next h =>
      simp only [List.mem_singleton] at hp
      subst hp; subst h
      refine ⟨rfl, rfl, List.nodup_singleton c, List.chain'_singleton c, ?_⟩
      intro x hx
      simp only [List.mem_singleton] at hx
      exact hx ▸ hc
    · next hct =>
      rw [List.mem_flatMap] at hp
      obtain ⟨n, hn, hp⟩ := hp
      split at hp
      · simp at hp
      · next hnvis =>
        rw [List.mem_map] at hp
        obtain ⟨p', hp', rfl⟩ := hp
        have hn2 : n ∉ c :: vis := fun h => hnvis h
        obtain ⟨h1, h2, h3, h4, h5⟩ := ih (c :: vis) n p' hn2 hp'
        obtain ⟨p'', rfl⟩ : ∃ p'', p' = n :: p'' := by
          cases p' with
          | nil => simp at h1
          | cons x xs => exact ⟨xs, by injection h1 with h; rw [h]⟩
        refine ⟨rfl, ?_, ?_, ?_, ?_⟩
        · rwa [List.getLast?_cons_cons]
        · rw [List.nodup_cons]
          refine ⟨fun hcp => ?_, h3⟩
          exact (h5 c hcp) (List.mem_cons_self c vis)
        · rw [List.chain'_cons]
          exact ⟨mem_neighborList_iff.mp hn, h4⟩
        · intro x hx
          rcases List.mem_cons.mp hx with rfl | hx
          · exact hc
          · exact fun hv => (h5 x hx) (List.mem_cons_of_mem c hv)

theorem simplePathsAux_self (g : Graph) (c : Nat) :
    ∀ (fuel : Nat) (vis : List Nat), simplePathsAux g c fuel vis c = [[c]] := by
  intro fuel vis
  cases fuel <;> simp [simplePathsAux]

theorem chain'_subset_nodeList {g : Graph} :
    ∀ (p : List Nat),
      p.Chain' (fun x y => (g.edgeWeight x y).isSome = true) →
      2 ≤ p.length → ∀ x ∈ p, x ∈ g.nodeList := by
  intro p
  induction p with
  | nil => intro _ h; simp at h
  | cons a rest ih =>
    intro hch hlen x hx
    cases rest with
    | nil => simp at hlen
    | cons b rest' =>
      rw [List.chain'_cons] at hch
      rcases List.mem_cons.mp hx with rfl | hx
      · exact (mem_nodeList_of_edgeWeight hch.1).1
      · cases rest' with
        | nil =>
          simp only [List.mem_singleton] at hx
          exact hx ▸ (mem_nodeList_of_edgeWeight hch.1).2
        | cons c rest'' =>
          exact ih hch.2 (by simp) x hx

theorem simplePathsAux_complete (g : Graph) (t : Nat) :
    ∀ (fuel : Nat) (vis : List Nat) (c : Nat) (p : List Nat),
      p.head? = some c → p.getLast? = some t → p.Nodup →
      p.Chain' (fun x y => (g.edgeWeight x y).isSome = true) →
      (∀ x ∈ p, x ∉ vis) → p.length ≤ fuel + 1 →
      p ∈ simplePathsAux g t fuel vis c := by
  intro fuel
  induction fuel with
  | zero =>
    intro vis c p hh hl hnd _hch _hvis hlen
    obtain ⟨rest, rfl⟩ : ∃ rest, p = c :: rest := by
      cases p with
      | nil => simp at hh
      | cons x xs => exact ⟨xs, by injection hh with h; rw [h]⟩
    have : rest = [] := by
      cases rest with
      | nil => rfl
      | cons y ys => simp at hlen
    subst this
    have hct : c = t := by
      simp only [List.getLast?_singleton] at hl
      injection hl
    simp [simplePathsAux, hct]
  | succ f ih =>
    intro vis c p hh hl hnd hch hvis hlen
    obtain ⟨rest, rfl⟩ : ∃ rest, p = c :: rest := by
      cases p with
      | nil => simp at hh
      | cons x xs => exact ⟨xs, by injection hh with h; rw [h]⟩
    by_cases hct : c = t
    · subst hct
      have : rest = [] := by
        cases rest with
        | nil => rfl
        | cons y ys =>
          rw [List.getLast?_cons_cons] at hl
          have hmem : c ∈ y :: ys :=
            List.mem_of_mem_getLast? (Option.mem_def.mpr hl)
          rw [List.nodup_cons] at hnd
          exact absurd hmem hnd.1
      subst this
      simp [simplePathsAux]
    · cases rest with
      | nil =>
        have : c = t := by
          simp only [List.getLast?_singleton] at hl
          injection hl
        exact absurd this hct
      | cons n rest' =>
        simp only [simplePathsAux, if_neg hct]
        rw [List.mem_flatMap]
        rw [List.chain'_cons] at hch
        rw [List.nodup_cons] at hnd
        refine ⟨n, mem_neighborList_iff.mpr hch.1, ?_⟩
        have hnc : n ∉ c :: vis := by
          intro hmem
          rcases List.mem_cons.mp hmem with rfl | hmem
          · exact hnd.1 (List.mem_cons_self n rest')
          · exact hvis n (List.mem_cons_of_mem c (List.mem_cons_self n rest')) hmem
        rw [if_neg hnc, List.mem_map]
        refine ⟨n :: rest', ?_, rfl⟩
        apply ih (c :: vis) n (n :: rest') rfl
        · rwa [List.getLast?_cons_cons] at hl
        · exact hnd.2
        · exact hch.2
        · intro x hx
          intro hmem
          rcases List.mem_cons.mp hmem with rfl | hmem
          · exact hnd.1 hx
          · exact hvis x (List.mem_cons_of_mem c hx) hmem
        · have : (c :: n :: rest').length ≤ f + 2 := hlen
          simpa using Nat.le_of_succ_le_succ this

theorem mem_simplePaths_iff {g : Graph} {a b : Nat} {p : List Nat} :
    p ∈ simplePaths g a b ↔ IsSimplePathBetween g a b p := by
  constructor
  · intro hp
    have h := simplePathsAux_sound g b g.nodeList.length [] a p (by simp) hp
    exact ⟨h.1, h.2.1, h.2.2.1, h.2.2.2.1⟩
  · rintro ⟨h1, h2, h3, h4⟩
    by_cases hl : 2 ≤ p.length
    · have hsub : ∀ x ∈ p, x ∈ g.nodeList := chain'_subset_nodeList p h4 hl
      have hbound : p.length ≤ g.nodeList.length := by
        have hnd : g.nodeList.Nodup := List.nodup_dedup _
        exact (h3.subperm hsub).length_le
      exact simplePathsAux_complete g b g.nodeList.length [] a p h1 h2 h3 h4
        (by simp) (Nat.le_succ_of_le hbound)
    · obtain ⟨x, rfl⟩ : ∃ x, p = [x] := by
        cases p with
        | nil => simp at h1
        | cons x xs =>
          cases xs with
          | nil => exact ⟨x, rfl⟩
          | cons y ys => exact absurd (by simp) hl
      have hxa : x = a := by injection h1
      have hxb : x = b := by
        simp only [List.getLast?_singleton] at h2
        injection h2
      subst hxa
      unfold simplePaths
      rw [hxb, simplePathsAux_self]
      exact List.mem_singleton.mpr rfl

/-- **C1** — `computePaths` / `nx.all_shortest_paths` over the current
topology graph returns exactly the simple paths of minimum total edge
weight between the two switches: a path is returned iff it is a simple
path from `a` to `b` whose cost is at most the cost of every simple path
from `a` to `b` (so no returned path exceeds the minimum and no
minimum-cost simple path is omitted). -/
theorem C1_all_shortest_paths_exact (g : Graph) (a b : Nat) (p : List Nat) :
    p ∈ all_shortest_paths g a b ↔
      IsSimplePathBetween g a b p ∧
        ∀ q, IsSimplePathBetween g a b q → pathCost g p ≤ pathCost g q := by
  unfold all_shortest_paths
  rw [List.mem_filter, List.all_eq_true]
  constructor
  · rintro ⟨hp, hall⟩
    refine ⟨mem_simplePaths_iff.mp hp, fun q hq => ?_⟩
    have := hall q (mem_simplePaths_iff.mpr hq)
    exact of_decide_eq_true this
  · rintro ⟨hp, hmin⟩
    exact ⟨mem_simplePaths_iff.mpr hp,
      fun q hq => decide_eq_true (hmin q (mem_simplePaths_iff.mp hq))⟩

/-! ## MAC location table: last write wins (C8) -/

theorem learnWrite_lookupMac {st st' : State} {dpid : Nat} {src : String}
    {inPort : Nat} (h : learnWrite st dpid src inPort = some st')
    (mac : String) :
    lookupMac st' mac =
      if mac = src then some (dpid, inPort) else lookupMac st mac := by
  unfold learnWrite at h
  cases hin : dlookup dpid st.macToPort with
  | none => rw [hin] at h; exact absurd h (by simp)
  | some inner =>
    rw [hin] at h
    have hst : st' =
        { st with
          macToSwitch := (src, dpid) :: st.macToSwitch
          macToPort := (dpid, (src, inPort) :: inner) :: st.macToPort } := by
      injection h with h
      exact h.symm
    subst hst
    by_cases hm : mac = src
    · subst hm
      simp [lookupMac, dlookup]
    · rw [if_neg hm]
      unfold lookupMac
      simp only [dlookup, if_neg hm]
      cases hms : dlookup mac st.macToSwitch with
      | none => rfl
      | some s =>
        by_cases hs : s = dpid
        · subst hs
          simp [dlookup, hin, hm]
        · simp [dlookup, hs]

/-- **C8** — for every sequence of learn writes, a destination lookup of a
MAC returns exactly the `(switch, port)` pair of the most recent learn for
that MAC: the result depends only on the last learn of that MAC, hence is
unaffected by how learns of other MACs on other switches are interleaved
(last write wins). -/
theorem C8_learn_lookup_last_write_wins (ops : List (Nat × String × Nat)) :
    ∀ (st st' : State), applyLearns st ops = some st' → ∀ mac,
      lookupMac st' mac =
        match lastLearnFor mac ops with
        | some r => some r
        | none => lookupMac st mac := by
  induction ops with
  | nil =>
    intro st st' h mac
    injection h with h
    subst h
    rfl
  | cons op rest ih =>
    intro st st' h mac
    obtain ⟨s, m, p⟩ := op
    simp only [applyLearns] at h
    cases hw : learnWrite st s m p with
    | none => rw [hw] at h; exact absurd h (by simp)
    | some st1 =>
      rw [hw] at h
      have h1 : applyLearns st1 rest = some st' := h
      rw [ih st1 st' h1 mac, learnWrite_lookupMac hw mac]
      simp only [lastLearnFor]
      cases lastLearnFor mac rest with
      | some r => rfl
      | none =>
        by_cases hm : mac = m
        · subst hm
          rw [if_pos rfl, if_pos rfl]
        · rw [if_neg hm, if_neg (fun h' => hm h'.symm)]

/-! ## Rule discipline (C6) -/

theorem forwardAlong_fields {st : State} {m : PacketInMsg}
    {key : Nat × Nat × String} {dp : Nat} {rules : List FlowRule}
    {calls : Nat} {r : HandlerResult}
    (h : forwardAlong st m key dp rules calls = some r) :
    r.st = st ∧ r.rules = rules ∧ r.installCalls = calls := by
  unfold forwardAlong at h
  split at h
  · exact absurd h (by simp)
  · split at h <;> (injection h with h; subst h; exact ⟨rfl, rfl, rfl⟩)

theorem install_path_rules_shape {st : State} {path : List Nat}
    {d : String} {fp : Nat} {hint : Option TcpInfo} :
    ∀ fr ∈ install_path_rules st path d fp hint,
      fr.idleTimeout = 30 ∧
        ((∃ t, hint = some t ∧ fr.priority = 10 ∧
            fr.matchSpec = MatchSpec.matchTcp d t.src_port t.dst_port) ∨
         (hint = none ∧ fr.priority = 5 ∧
            fr.matchSpec = MatchSpec.matchMac d)) := by
  have hmk : ∀ sw outp,
      (install_path_rules.mkRule d hint sw outp).idleTimeout = 30 ∧
        ((∃ t, hint = some t ∧
            (install_path_rules.mkRule d hint sw outp).priority = 10 ∧
            (install_path_rules.mkRule d hint sw outp).matchSpec =
              MatchSpec.matchTcp d t.src_port t.dst_port) ∨
         (hint = none ∧
            (install_path_rules.mkRule d hint sw outp).priority = 5 ∧
            (install_path_rules.mkRule d hint sw outp).matchSpec =
              MatchSpec.matchMac d)) := by
    intro sw outp
    cases hint with
    | none => exact ⟨rfl, Or.inr ⟨rfl, rfl, rfl⟩⟩
    | some t => exact ⟨rfl, Or.inl ⟨t, rfl, rfl, rfl⟩⟩
  show ∀ fr ∈ install_path_rules.go st d fp hint path, _
  induction path with
  | nil => intro fr hfr; simp [install_path_rules.go] at hfr
  | cons sw rest ih =>
    intro fr hfr
    cases rest with
    | nil =>
      simp only [install_path_rules.go] at hfr
      split at hfr
      · simp only [List.mem_singleton] at hfr
        subst hfr
        exact hmk sw fp
      · simp at hfr
    | cons next rest' =>
      simp only [install_path_rules.go] at hfr
      split at hfr
      · split at hfr
        · exact ih fr hfr
        · rcases List.mem_cons.mp hfr with rfl | hfr
          · exact hmk sw _
          · exact ih fr hfr
      · exact ih fr hfr

theorem packet_in_rules {st : State} {m : PacketInMsg} {k : Nat} {ok : Bool}
    {r : HandlerResult} (h : packet_in_handler st m k ok = some r) :
    r.rules = [] ∨
      ∃ st2 path dp, r.rules = install_path_rules st2 path m.dst dp m.tcpHint := by
  unfold packet_in_handler at h
  dsimp only at h
  split at h
  · injection h with h; subst h; exact Or.inl rfl
  · split at h
    · injection h with h; subst h; exact Or.inl rfl
    · split at h
      · exact absurd h (by simp)
      · split at h
        · injection h with h; subst h; exact Or.inl rfl
        · split at h
          · injection h with h; subst h; exact Or.inl rfl
          · split at h
            · exact absurd h (by simp)
            · split at h
              · injection h with h; subst h; exact Or.inl rfl
              · split at h
                · exact Or.inl (forwardAlong_fields h).2.1
                · split at h
                  · injection h with h; subst h; exact Or.inl rfl
                  · split at h
                    · exact Or.inr ⟨_, _, _, (forwardAlong_fields h).2.1⟩
                    · injection h with h; subst h; exact Or.inl rfl

/-- **C6** — every rule the controller ever installs (over any handler
invocation) obeys the priority/timeout discipline: the table-miss rule is
installed at switch join with priority 0 and idle timeout 0 (never
expires); every path rule carries the positive idle timeout 30, at
priority 10 exactly when the frame carried a transport (TCP) hint and at
priority 5 otherwise. -/
theorem C6_priority_timeout_discipline (st : State) (e : Event) (st' : State)
    (rules : List FlowRule) (h : handleEvent st e = some (st', rules))
    (r : FlowRule) (hr : r ∈ rules) :
    (∃ d, e = Event.switchFeatures d ∧ r.priority = 0 ∧ r.idleTimeout = 0) ∨
    (r.idleTimeout = 30 ∧
      ((r.priority = 10 ∧ (eventHint e).isSome = true) ∨
       (r.priority = 5 ∧ eventHint e = none))) := by
  cases e with
  | switchFeatures d =>
    simp only [handleEvent, switch_features_handler] at h
    injection h with h
    cases h
    simp only [List.mem_singleton] at hr
    subst hr
    exact Or.inl ⟨d, rfl, rfl, rfl⟩
  | linkAdd a ap b bp =>
    simp only [handleEvent] at h
    injection h with h
    cases h
    simp at hr
  | packetIn m k ok =>
    simp only [handleEvent] at h
    cases hh : packet_in_handler st m k ok with
    | none => rw [hh] at h; exact absurd h (by simp)
    | some r0 =>
      rw [hh] at h
      simp only [Option.map_some'] at h
      injection h with h
      cases h
      rcases packet_in_rules hh with hnil | ⟨st2, path, dp, hinst⟩
      · rw [hnil] at hr
        simp at hr
      · rw [hinst] at hr
        rcases install_path_rules_shape r hr with ⟨h30, hcase⟩
        refine Or.inr ⟨h30, ?_⟩
        rcases hcase with ⟨t, ht, hp, _⟩ | ⟨ht, hp, _⟩
        · exact Or.inl ⟨hp, by simp [eventHint, ht]⟩
        · exact Or.inr ⟨hp, by simp [eventHint, ht]⟩

/-- Witness for C6: a switch join installs exactly the table-miss rule, and
the discipline holds for it. -/
theorem C6_witness :
    ∃ st' rules,
      handleEvent stTables (Event.switchFeatures 3) = some (st', rules) ∧
      ∃ r, r ∈ rules ∧
        ((∃ d, Event.switchFeatures 3 = Event.switchFeatures d ∧
            r.priority = 0 ∧ r.idleTimeout = 0) ∨
         (r.idleTimeout = 30 ∧
           ((r.priority = 10 ∧
               (eventHint (Event.switchFeatures 3)).isSome = true) ∨
            (r.priority = 5 ∧ eventHint (Event.switchFeatures 3) = none)))) :=
  ⟨_, _, rfl, _, List.mem_singleton.mpr rfl,
    C6_priority_timeout_discipline stTables (Event.switchFeatures 3) _ _ rfl _
      (List.mem_singleton.mpr rfl)⟩

/-! ## Location-table coherence (C9) -/

theorem learnStep_inv {st st1 : State} {dpid inPort : Nat} {src : String}
    (hInv : MacInv st) (h : learnStep st dpid inPort src = some st1) :
    MacInv st1 := by
  unfold learnStep at h
  split at h
  · injection h with h; subst h; exact hInv
  · unfold learnWrite at h
    cases hin : dlookup dpid st.macToPort with
    | none => rw [hin] at h; exact absurd h (by simp)
    | some inner =>
      rw [hin] at h
      injection h with h
      subst h
      intro mac s hms
      simp only [dlookup] at hms ⊢
      by_cases hm : mac = src
      · subst hm
        rw [if_pos rfl] at hms
        injection hms with hms
        subst hms
        refine ⟨(mac, inPort) :: inner, by rw [if_pos rfl], ?_⟩
        simp [dlookup]
      · rw [if_neg hm] at hms
        obtain ⟨inner0, hi0, hs0⟩ := hInv mac s hms
        by_cases hs : s = dpid
        · subst hs
          rw [hi0] at hin
          injection hin with hin
          subst hin
          refine ⟨(src, inPort) :: inner0, by rw [if_pos rfl], ?_⟩
          simp only [dlookup, if_neg hm]
          exact hs0
        · exact ⟨inner0, by rw [if_neg hs]; exact hi0, hs0⟩

theorem learnStep_total {st : State} {dpid inPort : Nat} {src : String}
    (hpre : (dlookup dpid st.macToPort).isSome = true) :
    ∃ st1, learnStep st dpid inPort src = some st1 := by
  unfold learnStep
  split
  · exact ⟨st, rfl⟩
  · unfold learnWrite
    cases hin : dlookup dpid st.macToPort with
    | none => rw [hin] at hpre; simp at hpre
    | some inner => exact ⟨_, rfl⟩

theorem macInv_dst_lookup {st : State} {dst : String} {dd : Nat}
    (hInv : MacInv st) (h : dlookup dst st.macToSwitch = some dd) :
    ∃ dp, ((dlookup dd st.macToPort).bind fun inner => dlookup dst inner) =
      some dp := by
  obtain ⟨inner, hi, hs⟩ := hInv dst dd h
  rw [hi]
  cases hdp : dlookup dst inner with
  | none => rw [hdp] at hs; simp at hs
  | some p => exact ⟨p, by simp [hdp]⟩

theorem forwardAlong_total {st : State} {m : PacketInMsg}
    {key : Nat × Nat × String} {dp : Nat} {rules : List FlowRule}
    {calls : Nat} (h : (dlookup key st.flowToPath).isSome = true) :
    ∃ r, forwardAlong st m key dp rules calls = some r ∧
      r.st = st ∧ r.rules = rules ∧ r.installCalls = calls := by
  unfold forwardAlong
  cases hk : dlookup key st.flowToPath with
  | none => rw [hk] at h; simp at h
  | some path =>
    dsimp only
    cases ho : get_outport st m.dpid dp path with
    | none => exact ⟨_, rfl, rfl, rfl, rfl⟩
    | some pt => exact ⟨_, rfl, rfl, rfl, rfl⟩

theorem packet_in_total_inv {st : State} {m : PacketInMsg} {k : Nat}
    {ok : Bool} (hInv : MacInv st)
    (hpre : (dlookup m.dpid st.macToPort).isSome = true) :
    ∃ r, packet_in_handler st m k ok = some r ∧ MacInv r.st := by
  unfold packet_in_handler
  dsimp only
  split
  · exact ⟨_, rfl, hInv⟩
  · split
    · exact ⟨_, rfl, hInv⟩
    · obtain ⟨st1, h1⟩ := learnStep_total hpre
      have hInv1 : MacInv st1 := learnStep_inv hInv h1
      rw [h1]
      dsimp only
      split
      · exact ⟨_, rfl, hInv1⟩
      · cases hdd : dlookup m.dst st1.macToSwitch with
        | none => exact ⟨_, rfl, hInv1⟩
        | some dd =>
          dsimp only
          obtain ⟨dp, hdp⟩ := macInv_dst_lookup hInv1 hdd
          rw [hdp]
          dsimp only
          split
          · exact ⟨_, rfl, hInv1⟩
          · cases hkey : dlookup (m.dpid, dd, m.dst) st1.flowToPath with
            | some path =>
              dsimp only
              obtain ⟨r, hr, hrst, _, _⟩ :=
                @forwardAlong_total st1 m (m.dpid, dd, m.dst) dp [] 0
                  (by rw [hkey]; rfl)
              exact ⟨r, hr, hrst ▸ hInv1⟩
            | none =>
              dsimp only
              cases hpick : pickPath st1.ecmpEnabled k
                  (all_shortest_paths (graphToUse st1) m.dpid dd) with
              | none => exact ⟨_, rfl, hInv1⟩
              | some path =>
                dsimp only
                split
                · obtain ⟨r, hr, hrst, _, _⟩ :=
                    @forwardAlong_total
                      { st1 with
                        flowToPath :=
                          ((m.dpid, dd, m.dst), path) :: st1.flowToPath }
                      m (m.dpid, dd, m.dst) dp
                      (install_path_rules
                        { st1 with
                          flowToPath :=
                            ((m.dpid, dd, m.dst), path) :: st1.flowToPath }
                        path m.dst dp m.tcpHint)
                      1 (by simp [dlookup])
                  refine ⟨r, hr, ?_⟩
                  rw [hrst]
                  exact hInv1
                · exact ⟨_, rfl, hInv1⟩

theorem switch_features_inv {st : State} {dpid : Nat} (hInv : MacInv st) :
    MacInv (switch_features_handler st dpid).1 := by
  unfold switch_features_handler
  intro mac s hms
  obtain ⟨inner, hi, hsome⟩ := hInv mac s hms
  dsimp only
  split
  · exact ⟨inner, hi, hsome⟩
  · next habs =>
    refine ⟨inner, ?_, hsome⟩
    simp only [dlookup]
    split
    · next hs =>
      subst hs
      rw [hi] at habs
      simp at habs
    · exact hi

/-- **C9** — every handler invocation preserves the location-table
coherence invariant (`mac_to_switch[m] = s` implies `m ∈ mac_to_port[s]`),
and under it no invocation raises a `KeyError`: in particular the
unguarded destination lookup `mac_to_port[dst_dpid][dst]` of the packet-in
handler always succeeds for a destination found in `mac_to_switch` (for
PacketIn events the dispatcher guarantees the ingress switch completed
`switch_features_handler`, which is `eventPre`). -/
theorem C9_macInv_preserved (st : State) (e : Event) (hInv : MacInv st)
    (hpre : eventPre st e) :
    ∃ st' rules, handleEvent st e = some (st', rules) ∧ MacInv st' := by
  cases e with
  | switchFeatures d =>
    exact ⟨_, _, rfl, switch_features_inv hInv⟩
  | linkAdd a ap b bp =>
    exact ⟨_, _, rfl, hInv⟩
  | packetIn m k ok =>
    obtain ⟨r, hr, hrInv⟩ := @packet_in_total_inv st m k ok hInv hpre
    exact ⟨r.st, r.rules, by simp only [handleEvent, hr, Option.map_some'], hrInv⟩

/-- Witness for C9 at a concrete state and PacketIn event. -/
theorem C9_witness :
    ∃ st' rules,
      handleEvent stA (Event.packetIn mA 0 true) = some (st', rules) ∧
        MacInv st' := by
  apply C9_macInv_preserved stA (Event.packetIn mA 0 true)
  · intro mac s hms
    by_cases h : mac = "aa"
    · subst h
      refine ⟨[("aa", 7)], ?_, rfl⟩
      have hs : s = 2 := by
        simpa [stA, dlookup] using hms.symm
      subst hs
      rfl
    · exact absurd hms (by simp [stA, dlookup, h])
  · exact rfl

/-! ## Destination classification (C3) -/

theorem learnStep_fields {st st1 : State} {dpid inPort : Nat} {src : String}
    (h : learnStep st dpid inPort src = some st1) :
    st1.flowToPath = st.flowToPath ∧ st1.portToLink = st.portToLink ∧
    st1.linkToPort = st.linkToPort ∧ st1.datapaths = st.datapaths ∧
    st1.topologyGraph = st.topologyGraph ∧ st1.graph = st.graph ∧
    st1.ecmpEnabled = st.ecmpEnabled := by
  unfold learnStep learnWrite at h
  split at h
  · injection h with h
    subst h
    exact ⟨rfl, rfl, rfl, rfl, rfl, rfl, rfl⟩
  · cases hin : dlookup dpid st.macToPort with
    | none => rw [hin] at h; exact absurd h (by simp)
    | some inner =>
      rw [hin] at h
      injection h with h
      subst h
      exact ⟨rfl, rfl, rfl, rfl, rfl, rfl, rfl⟩

/-- **C3 counterexample** — a broadcast-destination frame
(`ff:ff:ff:ff:ff:ff`) is returned without any output: the terminal
outcome is `dropped` (the bare `return` of the multicast/broadcast
check), not `flood` as the claim states. -/
theorem C3_counterexample :
    packet_in_handler stA mBcast 0 true =
      some ⟨stA, Outcome.dropped, [], 0⟩ ∧
    Outcome.dropped ≠ Outcome.flood :=
  ⟨rfl, by decide⟩

/-- **C3 (amended)** — a frame whose destination MAC matches the
broadcast/multicast prefixes is ignored: the handler returns with the
state unchanged, sends nothing, installs no rule and creates no
flow-cache entry.  An ARP frame whose destination is not
broadcast/multicast-prefixed is flooded, with no rule installed and no
flow-cache entry created. -/
theorem C3_amended_multicast_ignored_arp_floods (st : State)
    (m : PacketInMsg) (k : Nat) (ok : Bool)
    (hL : m.ethertype ≠ ETH_TYPE_LLDP) :
    (isMulticastDst m.dst = true →
      packet_in_handler st m k ok = some ⟨st, Outcome.dropped, [], 0⟩) ∧
    (isMulticastDst m.dst = false → m.ethertype = ETH_TYPE_ARP →
      ∀ r, packet_in_handler st m k ok = some r →
        r.out = Outcome.flood ∧ r.rules = [] ∧
          r.st.flowToPath = st.flowToPath) := by
  constructor
  · intro hmc
    unfold packet_in_handler
    rw [if_neg hL, if_pos hmc]
  · intro hmc hARP r h
    unfold packet_in_handler at h
    dsimp only at h
    rw [if_neg hL, if_neg (by simp [hmc])] at h
    cases hls : learnStep st m.dpid m.inPort m.src with
    | none => rw [hls] at h; exact absurd h (by simp)
    | some st1 =>
      rw [hls] at h
      dsimp only at h
      rw [if_pos hARP] at h
      injection h with h
      subst h
      exact ⟨rfl, rfl, (learnStep_fields hls).1⟩

/-- Witness for the amended C3 at a broadcast frame. -/
theorem C3_witness :
    mBcast.ethertype ≠ ETH_TYPE_LLDP ∧ isMulticastDst mBcast.dst = true ∧
      packet_in_handler stA mBcast 1 false =
        some ⟨stA, Outcome.dropped, [], 0⟩ :=
  ⟨by decide, rfl,
    (C3_amended_multicast_ignored_arp_floods stA mBcast 1 false (by decide)).1
      rfl⟩

/-! ## Learning discipline (C7) -/

/-- **C7 counterexample** — a frame arriving on a non-trunk port whose
destination is multicast-prefixed is *not* learned (the
multicast/broadcast check precedes learning), refuting "learned iff the
ingress port is not a trunk port" for arbitrary packet-ins: here the
ingress port `(2, 9)` is no link endpoint, yet the handler returns with
the tables untouched and source `cc` unknown. -/
theorem C7_counterexample :
    (dlookup (mMcast.dpid, mMcast.inPort) stA.portToLink).isSome = false ∧
    packet_in_handler stA mMcast 0 true =
      some ⟨stA, Outcome.dropped, [], 0⟩ ∧
    dlookup mMcast.src stA.macToSwitch = none :=
  ⟨rfl, rfl, rfl⟩

theorem packet_in_macs {st : State} {m : PacketInMsg} {k : Nat} {ok : Bool}
    {r : HandlerResult} (h : packet_in_handler st m k ok = some r)
    (hL : m.ethertype ≠ ETH_TYPE_LLDP) (hmc : isMulticastDst m.dst = false) :
    ∃ st1, learnStep st m.dpid m.inPort m.src = some st1 ∧
      r.st.macToSwitch = st1.macToSwitch ∧
      r.st.macToPort = st1.macToPort := by
  unfold packet_in_handler at h
  dsimp only at h
  rw [if_neg hL, if_neg (by simp [hmc])] at h
  cases hls : learnStep st m.dpid m.inPort m.src with
  | none => rw [hls] at h; exact absurd h (by simp)
  | some st1 =>
    rw [hls] at h
    dsimp only at h
    refine ⟨st1, rfl, ?_⟩
    split at h
    · injection h with h; subst h; exact ⟨rfl, rfl⟩
    · split at h
      · injection h with h; subst h; exact ⟨rfl, rfl⟩
      · split at h
        · exact absurd h (by simp)
        · split at h
          · injection h with h; subst h; exact ⟨rfl, rfl⟩
          · split at h
            · obtain ⟨hrst, _, _⟩ := forwardAlong_fields h
              rw [hrst]
              exact ⟨rfl, rfl⟩
            · split at h
              · injection h with h; subst h; exact ⟨rfl, rfl⟩
              · split at h
                · obtain ⟨hrst, _, _⟩ := forwardAlong_fields h
                  rw [hrst]
                  exact ⟨rfl, rfl⟩
                · injection h with h; subst h; exact ⟨rfl, rfl⟩

theorem learnStep_learned {st st1 : State} {dpid inPort : Nat} {src : String}
    (h : learnStep st dpid inPort src = some st1) :
    if (dlookup (dpid, inPort) st.portToLink).isSome = true then st1 = st
    else dlookup src st1.macToSwitch = some dpid ∧
      ((dlookup dpid st1.macToPort).bind fun inner => dlookup src inner) =
        some inPort := by
  unfold learnStep learnWrite at h
  split at h
  · next htr =>
    rw [if_pos htr]
    injection h with h
    exact h.symm
  · next htr =>
    rw [if_neg htr]
    cases hin : dlookup dpid st.macToPort with
    | none => rw [hin] at h; exact absurd h (by simp)
    | some inner =>
      rw [hin] at h
      injection h with h
      subst h
      constructor
      · simp [dlookup]
      · simp [dlookup]

/-- **C7 (amended)** — for every packet-in that reaches the learning stage
(not an LLDP frame, destination not broadcast/multicast-prefixed,
delivered for a joined switch of a coherent state), the source MAC is
recorded as `(switch, sourceMAC, ingressPort)` iff the ingress port is
not an endpoint of a discovered inter-switch link; on a trunk port the
MAC tables are left exactly as they were.  (Frames rejected earlier —
LLDP or broadcast/multicast destinations — never update the tables, as
the C7 counterexample shows.) -/
theorem C7_amended_learn_iff_not_trunk (st : State) (m : PacketInMsg)
    (k : Nat) (ok : Bool) (hInv : MacInv st)
    (hpre : (dlookup m.dpid st.macToPort).isSome = true)
    (hL : m.ethertype ≠ ETH_TYPE_LLDP)
    (hmc : isMulticastDst m.dst = false) :
    ∃ r, packet_in_handler st m k ok = some r ∧
      (if (dlookup (m.dpid, m.inPort) st.portToLink).isSome = true then
        r.st.macToSwitch = st.macToSwitch ∧ r.st.macToPort = st.macToPort
      else
        dlookup m.src r.st.macToSwitch = some m.dpid ∧
          ((dlookup m.dpid r.st.macToPort).bind fun inner =>
            dlookup m.src inner) = some m.inPort) := by
  obtain ⟨r, hr, _⟩ := @packet_in_total_inv st m k ok hInv hpre
  refine ⟨r, hr, ?_⟩
  obtain ⟨st1, hls, hms, hmp⟩ := packet_in_macs hr hL hmc
  have hlearn := learnStep_learned hls
  split
  · next htr =>
    rw [if_pos htr] at hlearn
    subst hlearn
    exact ⟨hms, hmp⟩
  · next htr =>
    rw [if_neg htr] at hlearn
    rw [hms, hmp]
    exact hlearn

/-- Witness for the amended C7: frame `mA` on the non-trunk port
`(1, 1)` of `stA` gets its source learned. -/
theorem C7_witness :
    ∃ r, packet_in_handler stA mA 0 true = some r ∧
      (if (dlookup (mA.dpid, mA.inPort) stA.portToLink).isSome = true then
        r.st.macToSwitch = stA.macToSwitch ∧ r.st.macToPort = stA.macToPort
      else
        dlookup mA.src r.st.macToSwitch = some mA.dpid ∧
          ((dlookup mA.dpid r.st.macToPort).bind fun inner =>
            dlookup mA.src inner) = some mA.inPort) := by
  apply C7_amended_learn_iff_not_trunk stA mA 0 true
  · intro mac s hms
    by_cases h : mac = "aa"
    · subst h
      refine ⟨[("aa", 7)], ?_, rfl⟩
      have hs : s = 2 := by
        simpa [stA, dlookup] using hms.symm
      subst hs
      rfl
    · exact absurd hms (by simp [stA, dlookup, h])
  · exact rfl
  · decide
  · rfl

/-! ## Rule installation along a path (C5) -/

theorem mkRule_fields (d : String) (hint : Option TcpInfo) (sw outp : Nat) :
    (install_path_rules.mkRule d hint sw outp).dpid = sw ∧
      (install_path_rules.mkRule d hint sw outp).outPort = outp := by
  cases hint <;> exact ⟨rfl, rfl⟩

/-- **C5 counterexample** — installing the length-2 path `[1, 2]` in a
state with no live datapaths issues zero rule-install operations, not
exactly 2: every hop is skipped with a warning. -/
theorem C5_counterexample :
    install_path_rules stNoDp [1, 2] "aa" 7 none = [] ∧
      ([] : List FlowRule).length ≠ [1, 2].length :=
  ⟨rfl, by decide⟩

/-- **C5 (amended)** — when every switch of the path is registered live
and every consecutive hop has a known link port, installing a path of
length N issues exactly N rule-install operations, one per switch in
order; each non-final switch's rule outputs on the link port toward the
next switch in the path, and the final switch's rule outputs on the
egress port learned for the destination MAC.  (Otherwise the skipped
hops make fewer than N rules, as the counterexample shows.) -/
theorem C5_amended_install_exactly_n (st : State) (path : List Nat)
    (d : String) (fp : Nat) (hint : Option TcpInfo)
    (hlive : ∀ sw ∈ path, sw ∈ st.datapaths)
    (hports : ∀ i a b, path.get? i = some a → path.get? (i + 1) = some b →
      (dlookup (a, b) st.linkToPort).isSome = true) :
    (install_path_rules st path d fp hint).length = path.length ∧
    ∀ i sw, path.get? i = some sw →
      ∃ r, (install_path_rules st path d fp hint).get? i = some r ∧
        r.dpid = sw ∧
        (match path.get? (i + 1) with
         | some next => some r.outPort = dlookup (sw, next) st.linkToPort
         | none => r.outPort = fp) := by
  induction path with
  | nil => exact ⟨rfl, fun i sw hi => by simp at hi⟩
  | cons sw rest ih =>
    cases rest with
    | nil =>
      have hsw : sw ∈ st.datapaths := hlive sw (List.mem_singleton.mpr rfl)
      have h1 : install_path_rules st [sw] d fp hint =
          [install_path_rules.mkRule d hint sw fp] := by
        show install_path_rules.go st d fp hint [sw] = _
        simp [install_path_rules.go, hsw]
      constructor
      · rw [h1]; rfl
      · intro i x hi
        match i with
        | 0 =>
          obtain rfl : sw = x := by injection hi
          refine ⟨install_path_rules.mkRule d hint sw fp,
            by rw [h1]; rfl, ?_, ?_⟩
          · exact (mkRule_fields d hint sw fp).1
          · exact (mkRule_fields d hint sw fp).2
        | n + 1 => exact absurd hi (by simp)
    | cons next rest' =>
      have hsw : sw ∈ st.datapaths := hlive sw (List.mem_cons_self _ _)
      have hport := hports 0 sw next rfl rfl
      obtain ⟨p, hp⟩ := Option.isSome_iff_exists.mp hport
      have hlive' : ∀ x ∈ next :: rest', x ∈ st.datapaths := fun x hx =>
        hlive x (List.mem_cons_of_mem sw hx)
      have hports' : ∀ i a b, (next :: rest').get? i = some a →
          (next :: rest').get? (i + 1) = some b →
          (dlookup (a, b) st.linkToPort).isSome = true := fun i a b ha hb =>
        hports (i + 1) a b ha hb
      obtain ⟨ihlen, ihidx⟩ := ih hlive' hports'
      have hgo : install_path_rules st (sw :: next :: rest') d fp hint =
          install_path_rules.mkRule d hint sw p ::
            install_path_rules st (next :: rest') d fp hint := by
        show install_path_rules.go st d fp hint (sw :: next :: rest') = _
        simp only [install_path_rules.go, if_pos hsw, hp]
        rfl
      constructor
      · rw [hgo]
        simp only [List.length_cons, ihlen]
      · intro i x hi
        match i with
        | 0 =>
          obtain rfl : sw = x := by injection hi
          refine ⟨install_path_rules.mkRule d hint sw p,
            by rw [hgo]; rfl, ?_, ?_⟩
          · exact (mkRule_fields d hint sw p).1
          · show some (install_path_rules.mkRule d hint sw p).outPort =
              dlookup (sw, next) st.linkToPort
            rw [(mkRule_fields d hint sw p).2, hp]
        | n + 1 =>
          obtain ⟨r, hr, hdp, hout⟩ := ihidx n x hi
          exact ⟨r, by rw [hgo]; exact hr, hdp, hout⟩

/-- Witness for the amended C5 on the live two-switch path `[1, 2]`. -/
theorem C5_witness :
    (install_path_rules stA [1, 2] "aa" 7 none).length = [1, 2].length ∧
    ∀ i sw, [1, 2].get? i = some sw →
      ∃ r, (install_path_rules stA [1, 2] "aa" 7 none).get? i = some r ∧
        r.dpid = sw ∧
        (match [1, 2].get? (i + 1) with
         | some next => some r.outPort = dlookup (sw, next) stA.linkToPort
         | none => r.outPort = 7) := by
  apply C5_amended_install_exactly_n stA [1, 2] "aa" 7 none
  · decide
  · intro i a b ha hb
    match i with
    | 0 =>
      injection ha with ha
      injection hb with hb
      subst ha
      subst hb
      rfl
    | 1 => exact absurd hb (by simp)
    | n + 2 => exact absurd ha (by simp)

/-! ## Path-resolution failure handling (C2) -/

/-- **C2 counterexample** — with the destination known on a different,
disconnected switch, the handler hits `NetworkXNoPath` and returns
without sending anything: the terminal outcome is `dropped`, not `flood`
as the claim states. -/
theorem C2_counterexample :
    ∃ r, packet_in_handler stNoPath mA 0 true = some r ∧
      r.out = Outcome.dropped ∧ r.out ≠ Outcome.flood :=
  ⟨_, rfl, rfl, by decide⟩

/-- **C2 (amended)** — when path resolution fails neither failure mode
escapes as an exception, but the two modes degrade differently: no
connectivity between ingress and egress switch makes the handler log and
return with nothing sent (outcome `dropped`, no rule, no cache entry),
while a missing port mapping for the current hop of a cached path
degrades to `flood`. -/
theorem C2_amended_failure_handling (st : State) (m : PacketInMsg) (k : Nat)
    (ok : Bool) (st1 : State) (dd dp : Nat)
    (hL : m.ethertype ≠ ETH_TYPE_LLDP) (hmc : isMulticastDst m.dst = false)
    (hls : learnStep st m.dpid m.inPort m.src = some st1)
    (hARP : m.ethertype ≠ ETH_TYPE_ARP)
    (hdd : dlookup m.dst st1.macToSwitch = some dd)
    (hdp : ((dlookup dd st1.macToPort).bind fun inner => dlookup m.dst inner) =
      some dp)
    (hne : m.dpid ≠ dd) :
    (dlookup (m.dpid, dd, m.dst) st1.flowToPath = none →
      all_shortest_paths (graphToUse st1) m.dpid dd = [] →
      packet_in_handler st m k ok = some ⟨st1, Outcome.dropped, [], 0⟩) ∧
    (∀ path, dlookup (m.dpid, dd, m.dst) st1.flowToPath = some path →
      get_outport st1 m.dpid dp path = none →
      packet_in_handler st m k ok = some ⟨st1, Outcome.flood, [], 0⟩) := by
  constructor
  · intro hmiss hnopath
    unfold packet_in_handler
    dsimp only
    rw [if_neg hL, if_neg (by simp [hmc]), hls]
    dsimp only
    rw [if_neg hARP, hdd]
    dsimp only
    rw [hdp]
    dsimp only
    rw [if_neg hne, hmiss]
    dsimp only
    rw [hnopath]
    rfl
  · intro path hhit hout
    unfold packet_in_handler
    dsimp only
    rw [if_neg hL, if_neg (by simp [hmc]), hls]
    dsimp only
    rw [if_neg hARP, hdd]
    dsimp only
    rw [hdp]
    dsimp only
    rw [if_neg hne, hhit]
    dsimp only
    unfold forwardAlong
    rw [hhit]
    dsimp only
    rw [hout]

/-- Witness for the amended C2: the no-connectivity half at `stNoPath`. -/
theorem C2_witness :
    ∃ st1, learnStep stNoPath mA.dpid mA.inPort mA.src = some st1 ∧
      packet_in_handler stNoPath mA 2 true =
        some ⟨st1, Outcome.dropped, [], 0⟩ := by
  refine ⟨_, rfl, ?_⟩
  exact (C2_amended_failure_handling stNoPath mA 2 true _ 2 7 (by decide) rfl
    rfl (by decide) rfl rfl (by decide)).1 rfl rfl

/-! ## Flow-cache idempotence machinery (C4, C10) -/

theorem sameKeyHit_establish {m : PacketInMsg} {dd dp : Nat} {p : List Nat}
    {st st1 stq : State}
    (hL : m.ethertype ≠ ETH_TYPE_LLDP) (hmc : isMulticastDst m.dst = false)
    (hARP : m.ethertype ≠ ETH_TYPE_ARP) (hne : m.dpid ≠ dd)
    (hls : learnStep st m.dpid m.inPort m.src = some st1)
    (hdd : dlookup m.dst st1.macToSwitch = some dd)
    (hdp : ((dlookup dd st1.macToPort).bind fun inner => dlookup m.dst inner) =
      some dp)
    (hmacS : stq.macToSwitch = st1.macToSwitch)
    (hmacP : stq.macToPort = st1.macToPort)
    (hptl : stq.portToLink = st.portToLink)
    (hkey : dlookup (m.dpid, dd, m.dst) stq.flowToPath = some p) :
    SameKeyHitState m dd dp p stq := by
  refine ⟨hL, hmc, hARP, hne, ?_⟩
  unfold learnStep at hls
  by_cases htr : (dlookup (m.dpid, m.inPort) st.portToLink).isSome = true
  · rw [if_pos htr] at hls
    injection hls with hls
    refine ⟨stq, ?_, ?_, ?_, hkey⟩
    · unfold learnStep
      rw [hptl, if_pos htr]
    · rw [hmacS]; exact hdd
    · rw [hmacP]; exact hdp
  · rw [if_neg htr] at hls
    unfold learnWrite at hls
    cases hin : dlookup m.dpid st.macToPort with
    | none => rw [hin] at hls; exact absurd hls (by simp)
    | some inner =>
      rw [hin] at hls
      injection hls with hls
      have hsrc : m.dst ≠ m.src := by
        intro hEq
        rw [← hls] at hdd
        rw [hEq] at hdd
        simp only [dlookup, if_pos rfl] at hdd
        injection hdd with hdd
        exact hne hdd
      have hinq : dlookup m.dpid stq.macToPort =
          some ((m.src, m.inPort) :: inner) := by
        rw [hmacP, ← hls]
        simp [dlookup]
      have hstep : learnStep stq m.dpid m.inPort m.src = some
          { stq with
            macToSwitch := (m.src, m.dpid) :: stq.macToSwitch
            macToPort :=
              (m.dpid, (m.src, m.inPort) :: (m.src, m.inPort) :: inner) ::
                stq.macToPort } := by
        unfold learnStep
        rw [hptl, if_neg htr]
        unfold learnWrite
        rw [hinq]
        dsimp only
        rw [hptl]
      refine ⟨_, hstep, ?_, ?_, ?_⟩
      · show dlookup m.dst ((m.src, m.dpid) :: stq.macToSwitch) = some dd
        simp only [dlookup, if_neg hsrc]
        rw [hmacS]; exact hdd
      · have hddne : dd ≠ m.dpid := fun hEq => hne hEq.symm
        show ((dlookup dd
            ((m.dpid, (m.src, m.inPort) :: (m.src, m.inPort) :: inner) ::
              stq.macToPort)).bind fun i2 => dlookup m.dst i2) = some dp
        simp only [dlookup, if_neg hddne]
        rw [hmacP]
        exact hdp
      · exact hkey

theorem sameKeyHit_step {m : PacketInMsg} {dd dp : Nat} {p : List Nat}
    {st : State} (h : SameKeyHitState m dd dp p st) (k : Nat) (ok : Bool) :
    ∃ r, packet_in_handler st m k ok = some r ∧ r.rules = [] ∧
      r.installCalls = 0 ∧
      dlookup (m.dpid, dd, m.dst) r.st.flowToPath = some p ∧
      SameKeyHitState m dd dp p r.st := by
  obtain ⟨hL, hmc, hARP, hne, st1, hls, hdd, hdp, hkey⟩ := h
  obtain ⟨r, hr, hrst, hrules, hcalls⟩ :
      ∃ r, packet_in_handler st m k ok = some r ∧ r.st = st1 ∧
        r.rules = [] ∧ r.installCalls = 0 := by
    unfold packet_in_handler
    dsimp only
    rw [if_neg hL, if_neg (by simp [hmc]), hls]
    dsimp only
    rw [if_neg hARP, hdd]
    dsimp only
    rw [hdp]
    dsimp only
    rw [if_neg hne, hkey]
    dsimp only
    obtain ⟨r, hr, h1, h2, h3⟩ :=
      @forwardAlong_total st1 m (m.dpid, dd, m.dst) dp [] 0
        (by rw [hkey]; rfl)
    exact ⟨r, hr, h1, h2, h3⟩
  refine ⟨r, hr, hrules, hcalls, ?_, ?_⟩
  · rw [hrst]; exact hkey
  · rw [hrst]
    exact sameKeyHit_establish hL hmc hARP hne hls hdd hdp rfl rfl
      (learnStep_fields hls).2.1 hkey

theorem runRepeats_hits {m : PacketInMsg} {dd dp : Nat} {p : List Nat} :
    ∀ (ks : List (Nat × Bool)) (st : State), SameKeyHitState m dd dp p st →
      ∃ stN rs, runRepeats m st ks = some (stN, rs) ∧
        (∀ r' ∈ rs, r'.rules = [] ∧ r'.installCalls = 0) ∧
        dlookup (m.dpid, dd, m.dst) stN.flowToPath = some p ∧
        SameKeyHitState m dd dp p stN := by
  intro ks
  induction ks with
  | nil =>
    intro st h
    refine ⟨st, [], rfl, by simp, ?_, h⟩
    obtain ⟨_, _, _, _, st1, hls, _, _, hkey⟩ := h
    rw [← (learnStep_fields hls).1]
    exact hkey
  | cons kp rest ih =>
    intro st h
    obtain ⟨kk, ok⟩ := kp
    obtain ⟨r, hr, hrules, hcalls, hkeyr, hnext⟩ := sameKeyHit_step h kk ok
    obtain ⟨stN, rs, hrun, hall, hkeyN, hN⟩ := ih r.st hnext
    refine ⟨stN, r :: rs, ?_, ?_, hkeyN, hN⟩
    · simp only [runRepeats]
      rw [hr]
      dsimp only
      rw [hrun]
      rfl
    · intro r' hr'
      rcases List.mem_cons.mp hr' with rfl | hr'
      · exact ⟨hrules, hcalls⟩
      · exact hall r' hr'

theorem miss_write_inversion {st : State} {m : PacketInMsg} {k : Nat}
    {ok : Bool} {r : HandlerResult}
    (h : packet_in_handler st m k ok = some r)
    (hwas : ∀ d, dlookup (m.dpid, d, m.dst) st.flowToPath = none)
    {dd0 : Nat} {p0 : List Nat}
    (hsome : dlookup (m.dpid, dd0, m.dst) r.st.flowToPath = some p0) :
    ∃ dp, SameKeyHitState m dd0 dp p0 r.st ∧
      (ok = true → r.installCalls = 1) ∧
      (ok = false → r.out = Outcome.dropped ∧ r.rules = [] ∧
        r.installCalls = 0) := by
  unfold packet_in_handler at h
  dsimp only at h
  by_cases hL : m.ethertype = ETH_TYPE_LLDP
  · rw [if_pos hL] at h
    injection h with h
    subst h
    exact absurd hsome (by simp [hwas dd0])
  · rw [if_neg hL] at h
    by_cases hmcT : isMulticastDst m.dst = true
    · rw [if_pos hmcT] at h
      injection h with h
      subst h
      exact absurd hsome (by simp [hwas dd0])
    · rw [if_neg hmcT] at h
      have hmc : isMulticastDst m.dst = false := Bool.eq_false_iff.mpr hmcT
      cases hls : learnStep st m.dpid m.inPort m.src with
      | none => rw [hls] at h; exact absurd h (by simp)
      | some st1 =>
        rw [hls] at h
        dsimp only at h
        have hflow1 : st1.flowToPath = st.flowToPath :=
          (learnStep_fields hls).1
        by_cases hARP : m.ethertype = ETH_TYPE_ARP
        · rw [if_pos hARP] at h
          injection h with h
          subst h
          exact absurd hsome (by simp [hflow1, hwas dd0])
        · rw [if_neg hARP] at h
          cases hdd : dlookup m.dst st1.macToSwitch with
          | none =>
            rw [hdd] at h
            dsimp only at h
            injection h with h
            subst h
            exact absurd hsome (by simp [hflow1, hwas dd0])
          | some dd =>
            rw [hdd] at h
            dsimp only at h
            cases hdp : (dlookup dd st1.macToPort).bind
                (fun inner => dlookup m.dst inner) with
            | none => rw [hdp] at h; exact absurd h (by simp)
            | some dp =>
              rw [hdp] at h
              dsimp only at h
              by_cases hne : m.dpid = dd
              · rw [if_pos hne] at h
                injection h with h
                subst h
                exact absurd hsome (by simp [hflow1, hwas dd0])
              · rw [if_neg hne] at h
                cases hhit : dlookup (m.dpid, dd, m.dst) st1.flowToPath with
                | some q =>
                  rw [hflow1, hwas dd] at hhit
                  exact absurd hhit (by simp)
                | none =>
                  rw [hhit] at h
                  dsimp only at h
                  cases hpick : pickPath st1.ecmpEnabled k
                      (all_shortest_paths (graphToUse st1) m.dpid dd) with
                  | none =>
                    rw [hpick] at h
                    injection h with h
                    subst h
                    exact absurd hsome (by simp [hflow1, hwas dd0])
                  | some path =>
                    rw [hpick] at h
                    dsimp only at h
                    cases ok with
                    | true =>
                      rw [if_pos rfl] at h
                      obtain ⟨hrst, hrules, hcalls⟩ := forwardAlong_fields h
                      rw [hrst] at hsome
                      simp only [dlookup] at hsome
                      by_cases hk :
                          (m.dpid, dd0, m.dst) = (m.dpid, dd, m.dst)
                      · rw [if_pos hk] at hsome
                        injection hsome with hsome
                        have hdd0 : dd0 = dd := by
                          have := congrArg (fun x => x.2.1) hk
                          simpa using this
                        subst hdd0
                        subst hsome
                        refine ⟨dp, ?_, fun _ => hcalls,
                          fun hf => absurd hf (by simp)⟩
                        rw [hrst]
                        exact sameKeyHit_establish hL hmc hARP hne hls hdd hdp
                          rfl rfl (learnStep_fields hls).2.1
                          (by simp [dlookup])
                      · rw [if_neg hk] at hsome
                        rw [hflow1, hwas dd0] at hsome
                        exact absurd hsome (by simp)
                    | false =>
                      rw [if_neg (by simp)] at h
                      injection h with h
                      subst h
                      simp only [dlookup] at hsome
                      by_cases hk :
                          (m.dpid, dd0, m.dst) = (m.dpid, dd, m.dst)
                      · rw [if_pos hk] at hsome
                        injection hsome with hsome
                        have hdd0 : dd0 = dd := by
                          have := congrArg (fun x => x.2.1) hk
                          simpa using this
                        subst hdd0
                        subst hsome
                        refine ⟨dp, ?_, fun ht => absurd ht (by simp),
                          fun _ => ⟨rfl, rfl, rfl⟩⟩
                        exact sameKeyHit_establish hL hmc hARP hne hls hdd hdp
                          rfl rfl (learnStep_fields hls).2.1
                          (by simp [dlookup])
                      · rw [if_neg hk] at hsome
                        rw [hflow1, hwas dd0] at hsome
                        exact absurd hsome (by simp)

/-- **C4** — `getOrInstall` is idempotent for an unchanged topology: if a
delivery of frame `m` finds no cached path for its key
`(ingress switch, ·, destination MAC)` and leaves one behind, then that
first delivery invoked `install_path_rules` exactly once, and every
further delivery of the same frame — any number of repetitions, with any
ECMP draws — returns the very same cached path, sends no flow rule and
never invokes `install_path_rules` again. -/
theorem C4_getOrInstall_idempotent (st : State) (m : PacketInMsg) (k : Nat)
    (r : HandlerResult) (h1 : packet_in_handler st m k true = some r)
    (hwas : ∀ d, dlookup (m.dpid, d, m.dst) st.flowToPath = none)
    (hsome : ∃ d p, dlookup (m.dpid, d, m.dst) r.st.flowToPath = some p) :
    r.installCalls = 1 ∧
    ∃ d p, dlookup (m.dpid, d, m.dst) r.st.flowToPath = some p ∧
      ∀ ks, ∃ stN rs, runRepeats m r.st ks = some (stN, rs) ∧
        (∀ r' ∈ rs, r'.rules = [] ∧ r'.installCalls = 0) ∧
        dlookup (m.dpid, d, m.dst) stN.flowToPath = some p := by
  obtain ⟨d, p, hs⟩ := hsome
  obtain ⟨dp, hhit, hok, _⟩ := miss_write_inversion h1 hwas hs
  refine ⟨hok rfl, d, p, hs, fun ks => ?_⟩
  obtain ⟨stN, rs, hrun, hall, hkeyN, _⟩ := runRepeats_hits ks r.st hhit
  exact ⟨stN, rs, hrun, hall, hkeyN⟩

/-- Witness for C4: the first delivery of `mA` at `stA` caches `[1, 2]`
and installs once; three further deliveries hit the cache. -/
theorem C4_witness :
    ∃ r, packet_in_handler stA mA 0 true = some r ∧
      r.installCalls = 1 ∧
      ∃ d p, dlookup (mA.dpid, d, mA.dst) r.st.flowToPath = some p ∧
        ∀ ks, ∃ stN rs, runRepeats mA r.st ks = some (stN, rs) ∧
          (∀ r' ∈ rs, r'.rules = [] ∧ r'.installCalls = 0) ∧
          dlookup (mA.dpid, d, mA.dst) stN.flowToPath = some p :=
  ⟨_, rfl,
    C4_getOrInstall_idempotent stA mA 0 _ rfl (fun _ => rfl)
      ⟨2, [1, 2], rfl⟩⟩

/-- **C10** — on a flow-cache miss the computed path is memoized before
rule installation: if an exception interrupts transport-header parsing or
rule installation (`installOk = false`), the current packet is dropped
and no rule is sent, but the cache keeps the new entry, and every
subsequent delivery of the same frame is forwarded from that cached path
with no further rule-installation attempt — the cache write is not
rolled back on error. -/
theorem C10_cache_write_survives_install_failure (st : State)
    (m : PacketInMsg) (k : Nat) (r : HandlerResult)
    (h1 : packet_in_handler st m k false = some r)
    (hwas : ∀ d, dlookup (m.dpid, d, m.dst) st.flowToPath = none)
    (hsome : ∃ d p, dlookup (m.dpid, d, m.dst) r.st.flowToPath = some p) :
    r.out = Outcome.dropped ∧ r.rules = [] ∧ r.installCalls = 0 ∧
    ∃ d p, dlookup (m.dpid, d, m.dst) r.st.flowToPath = some p ∧
      ∀ ks, ∃ stN rs, runRepeats m r.st ks = some (stN, rs) ∧
        (∀ r' ∈ rs, r'.rules = [] ∧ r'.installCalls = 0) ∧
        dlookup (m.dpid, d, m.dst) stN.flowToPath = some p := by
  obtain ⟨d, p, hs⟩ := hsome
  obtain ⟨dp, hhit, _, hfail⟩ := miss_write_inversion h1 hwas hs
  obtain ⟨hout, hrules, hcalls⟩ := hfail rfl
  refine ⟨hout, hrules, hcalls, d, p, hs, fun ks => ?_⟩
  obtain ⟨stN, rs, hrun, hall, hkeyN, _⟩ := runRepeats_hits ks r.st hhit
  exact ⟨stN, rs, hrun, hall, hkeyN⟩

/-- Witness for C10: at `stA` a failing installation still caches
`[1, 2]`; later deliveries are served from the cache. -/
theorem C10_witness :
    ∃ r, packet_in_handler stA mA 3 false = some r ∧
      r.out = Outcome.dropped ∧ r.rules = [] ∧ r.installCalls = 0 ∧
      ∃ d p, dlookup (mA.dpid, d, mA.dst) r.st.flowToPath = some p ∧
        ∀ ks, ∃ stN rs, runRepeats mA r.st ks = some (stN, rs) ∧
          (∀ r' ∈ rs, r'.rules = [] ∧ r'.installCalls = 0) ∧
          dlookup (mA.dpid, d, mA.dst) stN.flowToPath = some p :=
  ⟨_, rfl,
    C10_cache_write_survives_install_failure stA mA 3 _ rfl (fun _ => rfl)
      ⟨2, [1, 2], rfl⟩⟩

/-- Witness for C8: learning `aa` at switch 1 then at switch 2 (with an
unrelated learn interleaved) makes lookup return the most recent
location. -/
theorem C8_witness :
    ∃ st', applyLearns stTables
        [(1, "aa", 5), (2, "aa", 6), (1, "cc", 9)] = some st' ∧
      lookupMac st' "aa" = some (2, 6) :=
  ⟨_, rfl,
    (C8_learn_lookup_last_write_wins
      [(1, "aa", 5), (2, "aa", 6), (1, "cc", 9)] stTables _ rfl "aa").trans
      rfl⟩
